import Mathlib

/-!
Verification development for the simple-commit-log event broker.

Bytes are modelled as `Nat` values (written values are always `< 256` by
construction; where a claim quantifies over arbitrary input streams a
byte-bound hypothesis is stated explicitly).  Machine integers are `Nat`
with explicit `% 2^32` / `% 2^64` where Go's `uint32` / `uint64`
arithmetic can wrap.  Fallible operations return `Except Err α`.
-/

/-- Error taxonomy: the sentinel errors of the repository plus the distinct
I/O failure points a caller can observe.  Wrapping with `%w` keeps sentinels
identifiable, so a flat enumeration is a faithful model. -/
inductive Err where
  | outOfBounds
  | topicNotFound
  | topicAlreadyExists
  | notInCache
  | notInStorage
  | ioErr
  | writerOpenErr
  | writerWriteErr
  | parseIDErr
  | ctxCanceled
  | wouldBlock
deriving DecidableEq, Repr

/-! ## Record-batch codec (package `recordbatch`) -/

def headerSize : Nat := 9

def recordIndexSize : Nat := 4

def FileFormatMagicBytes : List Nat := [115, 108, 99]

def FileFormatVersion : Int := 1

/-- Little-endian bytes of a `uint32` value. -/
def u32le (n : Nat) : List Nat :=
  [n % 256, n / 256 % 256, n / 65536 % 256, n / 16777216 % 256]

/-- Little-endian bytes of a `uint16`-sized value. -/
def u16le (n : Nat) : List Nat := [n % 256, n / 256 % 256]

/-- Little-endian bytes of an `int16` value (two's complement). -/
def i16le (v : Int) : List Nat := u16le (v % 65536).toNat

/-- Decode a `uint32` from (up to) four little-endian bytes. -/
def decodeU32le (bs : List Nat) : Nat :=
  bs.getD 0 0 + 256 * bs.getD 1 0 + 65536 * bs.getD 2 0 + 16777216 * bs.getD 3 0

/-- Decode an `int16` from two little-endian bytes (two's complement). -/
def decodeI16le (bs : List Nat) : Int :=
  let n := bs.getD 0 0 + 256 * bs.getD 1 0
  if n < 32768 then (n : Int) else (n : Int) - 65536

structure Header where
  magicBytes : List Nat
  version : Int
  numRecords : Nat
deriving DecidableEq, Repr

/-- Bytes of the 9-byte file header, as `binary.Write` lays it out:
3 magic bytes, int16 version, uint32 record count, little-endian. -/
def writeHeader (h : Header) : List Nat :=
  h.magicBytes ++ i16le h.version ++ u32le h.numRecords

/-- The running `uint32` record-index accumulator of `Write`:
each record's payload-relative offset, wrapping at `2^32` like Go's
`recordIndex += uint32(len(record))`. -/
def recIndexAux : List (List Nat) → Nat → List Nat
  | [], _ => []
  | r :: rs, acc => acc :: recIndexAux rs ((acc + r.length) % 2^32)

def recIndex (records : List (List Nat)) : List Nat := recIndexAux records 0

/-- `Write(wtr, records)`: header, then the per-record index, then the
concatenated record payloads, no padding.  (The sink's own failures are
injected separately where a claim needs them; this is the byte stream a
successful write produces.) -/
def Write (records : List (List Nat)) : List Nat :=
  writeHeader ⟨FileFormatMagicBytes, FileFormatVersion, records.length % 2^32⟩
    ++ (recIndex records).flatMap u32le
    ++ records.flatten

/-- Decode `n` consecutive little-endian `uint32` values. -/
def decodeU32s : List Nat → Nat → List Nat
  | _, 0 => []
  | bs, n + 1 => decodeU32le (bs.take 4) :: decodeU32s (bs.drop 4) n

/-- The parsed handle: header, record index, and the seekable source
(`Record` always seeks absolutely, so the full underlying byte stream is
the faithful model of the retained reader). -/
structure RecordBatch where
  header : Header
  recordIndex : List Nat
  data : List Nat
deriving DecidableEq, Repr

/-- `Parse(rdr)`: reads the header (fails if fewer than 9 bytes), reads
`NumRecords` index entries (fails if the remainder is shorter than
`4·NumRecords`).  The Go code performs no validation of magic or version. -/
def Parse (bs : List Nat) : Except Err RecordBatch :=
  if bs.length < headerSize then .error .ioErr
  else if bs.length < headerSize + recordIndexSize * decodeU32le ((bs.drop 5).take 4) then
    .error .ioErr
  else .ok
    { header :=
        { magicBytes := bs.take 3
          version := decodeI16le ((bs.drop 3).take 2)
          numRecords := decodeU32le ((bs.drop 5).take 4) }
      recordIndex := decodeU32s (bs.drop headerSize) (decodeU32le ((bs.drop 5).take 4))
      data := bs }

/-- The absolute seek target for record `k`:
`headerSize + NumRecords*recordIndexSize + recordIndex[k]`, in `uint32`
arithmetic as the Go code computes it. -/
def RecordBatch.fileOffset (rb : RecordBatch) (k : Nat) : Nat :=
  (headerSize + rb.header.numRecords * recordIndexSize + rb.recordIndex.getD k 0) % 2^32

/-- The `uint32` byte count `recordIndex[k+1] - recordIndex[k]` read for a
non-last record. -/
def RecordBatch.recordSize (rb : RecordBatch) (k : Nat) : Nat :=
  (rb.recordIndex.getD (k + 1) 0 + 2^32 - rb.recordIndex.getD k 0) % 2^32

/-- `RecordBatch.Record(k)`: out-of-bounds for `k ≥ NumRecords`; otherwise
seek to `fileOffset k` and read to end for the last record, else read
`recordSize k` bytes via `io.ReadFull`, which fails when fewer bytes
remain. -/
def RecordBatch.Record (rb : RecordBatch) (k : Nat) : Except Err (List Nat) :=
  if rb.header.numRecords ≤ k then .error .outOfBounds
  else if k = (rb.recordIndex.length + 2^32 - 1) % 2^32 then
    .ok (rb.data.drop (rb.fileOffset k))
  else if (rb.data.drop (rb.fileOffset k)).length < rb.recordSize k then .error .ioErr
  else .ok ((rb.data.drop (rb.fileOffset k)).take (rb.recordSize k))

/-! ## Basic codec lemmas -/

def totalSize (records : List (List Nat)) : Nat := (records.map List.length).sum

theorem u32le_length (n : Nat) : (u32le n).length = 4 := rfl

theorem decodeU32le_u32le (n : Nat) : decodeU32le (u32le n) = n % 2^32 := by
  show n % 256 + 256 * (n / 256 % 256) + 65536 * (n / 65536 % 256)
      + 16777216 * (n / 16777216 % 256) = n % 2^32
  omega

theorem writeHeader_length (h : Header) (hm : h.magicBytes.length = 3) :
    (writeHeader h).length = 9 := by
  simp [writeHeader, i16le, u16le, u32le, hm]

theorem recIndexAux_length (rs : List (List Nat)) (acc : Nat) :
    (recIndexAux rs acc).length = rs.length := by
  induction rs generalizing acc with
  | nil => rfl
  | cons r rs ih => simp [recIndexAux, ih]

theorem flatMap_u32le_length (l : List Nat) : (l.flatMap u32le).length = 4 * l.length := by
  induction l with
  | nil => rfl
  | cons a l ih =>
    show (u32le a ++ l.flatMap u32le).length = 4 * (l.length + 1)
    rw [List.length_append, ih, u32le_length]
    omega

theorem Write_length (records : List (List Nat)) :
    (Write records).length = 9 + 4 * records.length + totalSize records := by
  have h1 : (writeHeader ⟨FileFormatMagicBytes, FileFormatVersion, records.length % 2^32⟩).length = 9 := rfl
  have h2 := flatMap_u32le_length (recIndex records)
  have h3 : (recIndex records).length = records.length := recIndexAux_length records 0
  simp only [Write, List.length_append, h1, h2, h3, List.length_flatten, totalSize]

theorem drop_append_len {α : Type} (A B : List α) (n : Nat) :
    (A ++ B).drop (A.length + n) = B.drop n := by
  induction A with
  | nil => simp
  | cons a A ih => simp [Nat.succ_add, ih]

/-- Cumulative byte offsets of a list of sizes, starting from `acc`,
in plain (non-wrapping) arithmetic. -/
def offsetsFrom : List Nat → Nat → List Nat
  | [], _ => []
  | n :: ns, acc => acc :: offsetsFrom ns (acc + n)

/-- Total byte size of the first `k` records. -/
def prefSize (rs : List (List Nat)) (k : Nat) : Nat := ((rs.map List.length).take k).sum

theorem sum_take_le (l : List Nat) (k : Nat) : (l.take k).sum ≤ l.sum := by
  conv_rhs => rw [← List.take_append_drop k l]
  rw [List.sum_append]
  omega

theorem prefSize_le_totalSize (rs : List (List Nat)) (k : Nat) :
    prefSize rs k ≤ totalSize rs := sum_take_le _ _

theorem offsetsFrom_length (ns : List Nat) (acc : Nat) :
    (offsetsFrom ns acc).length = ns.length := by
  induction ns generalizing acc with
  | nil => rfl
  | cons n ns ih => simp [offsetsFrom, ih]

theorem offsetsFrom_getD (ns : List Nat) (acc k : Nat) (hk : k < ns.length) :
    (offsetsFrom ns acc).getD k 0 = acc + (ns.take k).sum := by
  induction ns generalizing acc k with
  | nil => simp at hk
  | cons n ns ih =>
    cases k with
    | zero => simp [offsetsFrom]
    | succ k =>
      have hk' : k < ns.length := by simpa using hk
      simp only [offsetsFrom, List.getD_cons_succ, List.take_succ_cons, List.sum_cons]
      rw [ih _ _ hk']
      omega

theorem offsetsFrom_mem_ge (ns : List Nat) (acc : Nat) :
    ∀ x ∈ offsetsFrom ns acc, acc ≤ x := by
  induction ns generalizing acc with
  | nil => simp [offsetsFrom]
  | cons n ns ih =>
    intro x hx
    simp only [offsetsFrom, List.mem_cons] at hx
    rcases hx with rfl | hx
    · exact Nat.le_refl _
    · exact Nat.le_trans (Nat.le_add_right _ _) (ih _ x hx)

theorem offsetsFrom_pairwise (ns : List Nat) (acc : Nat) :
    (offsetsFrom ns acc).Pairwise (· ≤ ·) := by
  induction ns generalizing acc with
  | nil => exact List.Pairwise.nil
  | cons n ns ih =>
    refine List.Pairwise.cons ?_ (ih _)
    intro x hx
    exact Nat.le_trans (Nat.le_add_right _ _) (offsetsFrom_mem_ge ns _ x hx)

theorem recIndexAux_eq_offsetsFrom (rs : List (List Nat)) (acc : Nat)
    (h : acc + totalSize rs < 2^32) :
    recIndexAux rs acc = offsetsFrom (rs.map List.length) acc := by
  induction rs generalizing acc with
  | nil => rfl
  | cons r rest ih =>
    have hsz : totalSize (r :: rest) = r.length + totalSize rest := by
      simp [totalSize]
    have hmod : (acc + r.length) % 2^32 = acc + r.length := by
      apply Nat.mod_eq_of_lt; omega
    simp only [recIndexAux, List.map_cons, offsetsFrom, hmod]
    exact congrArg _ (ih _ (by omega))

theorem recIndexAux_mem_lt (rs : List (List Nat)) (acc : Nat) (hacc : acc < 2^32) :
    ∀ x ∈ recIndexAux rs acc, x < 2^32 := by
  induction rs generalizing acc with
  | nil => simp [recIndexAux]
  | cons r rest ih =>
    intro x hx
    simp only [recIndexAux, List.mem_cons] at hx
    rcases hx with rfl | hx
    · exact hacc
    · exact ih _ (Nat.mod_lt _ (by norm_num)) x hx

theorem flatten_drop_prefSize (rs : List (List Nat)) (k : Nat) :
    rs.flatten.drop (prefSize rs k) = (rs.drop k).flatten := by
  induction rs generalizing k with
  | nil => simp [prefSize]
  | cons r rest ih =>
    cases k with
    | zero => simp [prefSize]
    | succ k =>
      have hps : prefSize (r :: rest) (k + 1) = r.length + prefSize rest k := by
        simp [prefSize]
      rw [hps]
      show (r ++ rest.flatten).drop (r.length + prefSize rest k) = (rest.drop k).flatten
      rw [drop_append_len, ih]

theorem prefSize_succ (rs : List (List Nat)) (k : Nat) (hk : k < rs.length) :
    prefSize rs (k + 1) = prefSize rs k + (rs.getD k []).length := by
  induction rs generalizing k with
  | nil => simp at hk
  | cons r rest ih =>
    cases k with
    | zero => simp [prefSize]
    | succ k =>
      have hk' : k < rest.length := by simpa using hk
      have h1 : prefSize (r :: rest) (k + 1 + 1) = r.length + prefSize rest (k + 1) := by
        simp [prefSize]
      have h2 : prefSize (r :: rest) (k + 1) = r.length + prefSize rest k := by
        simp [prefSize]
      rw [h1, h2, ih _ hk', List.getD_cons_succ]
      omega

theorem flatten_drop_last (rs : List (List Nat)) (k : Nat) (hk : k + 1 = rs.length) :
    (rs.drop k).flatten = rs.getD k [] := by
  induction rs generalizing k with
  | nil => simp at hk
  | cons r rest ih =>
    cases k with
    | zero =>
      have : rest = [] := by
        cases rest with
        | nil => rfl
        | cons a t => simp at hk
      simp [this]
    | succ k =>
      have hk' : k + 1 = rest.length := by simpa using hk
      show (rest.drop k).flatten = rest.getD k []
      exact ih _ hk'

theorem flatten_drop_cons (rs : List (List Nat)) (k : Nat) (hk : k < rs.length) :
    (rs.drop k).flatten = rs.getD k [] ++ (rs.drop (k + 1)).flatten := by
  induction rs generalizing k with
  | nil => simp at hk
  | cons r rest ih =>
    cases k with
    | zero => simp
    | succ k =>
      have hk' : k < rest.length := by simpa using hk
      show (rest.drop k).flatten = rest.getD k [] ++ (rest.drop (k + 1)).flatten
      exact ih _ hk'

theorem decodeU32s_flatMap (l tail : List Nat) (h : ∀ x ∈ l, x < 2^32) :
    decodeU32s (l.flatMap u32le ++ tail) l.length = l := by
  induction l with
  | nil => rfl
  | cons a l ih =>
    rw [List.flatMap_cons, List.append_assoc]
    show decodeU32le ((u32le a ++ (l.flatMap u32le ++ tail)).take 4) ::
        decodeU32s ((u32le a ++ (l.flatMap u32le ++ tail)).drop 4) l.length = a :: l
    rw [List.take_left' (u32le_length a), List.drop_left' (u32le_length a),
      decodeU32le_u32le, Nat.mod_eq_of_lt (h a (List.mem_cons_self a l)),
      ih (fun x hx => h x (List.mem_cons_of_mem a hx))]

theorem i16le_one : i16le 1 = [1, 0] := by decide

theorem Write_eq_cons (records : List (List Nat)) :
    Write records = 115 :: 108 :: 99 :: 1 :: 0 ::
      (u32le (records.length % 2^32) ++
        ((recIndex records).flatMap u32le ++ records.flatten)) := by
  simp [Write, writeHeader, FileFormatMagicBytes, FileFormatVersion, i16le_one]

/-- Parsing a freshly written batch file recovers the header and the index
unchanged (no truncation: the record count fits a `uint32`). -/
theorem Parse_Write (records : List (List Nat)) (h : records.length < 2^32) :
    Parse (Write records) = .ok
      { header :=
          { magicBytes := FileFormatMagicBytes
            version := 1
            numRecords := records.length }
        recordIndex := recIndex records
        data := Write records } := by
  have hW := Write_length records
  have hnum : decodeU32le (((Write records).drop 5).take 4) = records.length := by
    have hdrop5 : (Write records).drop 5 = u32le (records.length % 2^32) ++
        ((recIndex records).flatMap u32le ++ records.flatten) := by
      rw [Write_eq_cons]; rfl
    rw [hdrop5, List.take_left' (u32le_length _), decodeU32le_u32le]
    omega
  have htake3 : (Write records).take 3 = FileFormatMagicBytes := by
    rw [Write_eq_cons]; rfl
  have hver : decodeI16le (((Write records).drop 3).take 2) = 1 := by
    rw [Write_eq_cons]; rfl
  have hidx : decodeU32s ((Write records).drop headerSize) records.length = recIndex records := by
    have hdrop9 : (Write records).drop headerSize =
        (recIndex records).flatMap u32le ++ records.flatten := by
      rw [Write_eq_cons]
      show (u32le (records.length % 2^32) ++ _).drop 4 = _
      exact List.drop_left' (u32le_length _)
    rw [hdrop9]
    have hrl : (recIndex records).length = records.length := recIndexAux_length records 0
    rw [← hrl]
    exact decodeU32s_flatMap _ _ (recIndexAux_mem_lt records 0 (by norm_num))
  rw [Parse, if_neg (by simp [headerSize]; omega), hnum,
    if_neg (by simp [headerSize, recordIndexSize]; omega), htake3, hver, hidx]

theorem getD_length_le_totalSize (records : List (List Nat)) (k : Nat) (hk : k < records.length) :
    (records.getD k []).length ≤ totalSize records := by
  have h1 := prefSize_le_totalSize records (k + 1)
  rw [prefSize_succ records k hk] at h1
  omega

/-- Reading record `k` back from a freshly written batch file returns
exactly the `k`-th input record (file small enough for the format's
`uint32` offsets). -/
theorem Record_Write (records : List (List Nat)) (k : Nat) (hk : k < records.length)
    (hb : 9 + 4 * records.length + totalSize records < 2^32) :
    RecordBatch.Record
      { header := ⟨FileFormatMagicBytes, 1, records.length⟩
        recordIndex := recIndex records
        data := Write records } k
      = .ok (records.getD k []) := by
  have hlen : records.length < 2^32 := by omega
  have hri : recIndex records = offsetsFrom (records.map List.length) 0 :=
    recIndexAux_eq_offsetsFrom records 0 (by omega)
  have hrl : (recIndex records).length = records.length := recIndexAux_length records 0
  have hgetD : (recIndex records).getD k 0 = prefSize records k := by
    rw [hri, offsetsFrom_getD _ _ _ (by simpa using hk)]
    simp [prefSize]
  have hprefLe := prefSize_le_totalSize records k
  have hfo : RecordBatch.fileOffset
      ⟨⟨FileFormatMagicBytes, 1, records.length⟩, recIndex records, Write records⟩ k
      = headerSize + records.length * recordIndexSize + prefSize records k := by
    simp only [RecordBatch.fileOffset, hgetD]
    apply Nat.mod_eq_of_lt
    simp only [headerSize, recordIndexSize]
    omega
  have hsplit : Write records =
      (writeHeader ⟨FileFormatMagicBytes, FileFormatVersion, records.length % 2^32⟩
        ++ (recIndex records).flatMap u32le) ++ records.flatten := by
    simp [Write, List.append_assoc]
  have hAlen : (writeHeader ⟨FileFormatMagicBytes, FileFormatVersion, records.length % 2^32⟩
      ++ (recIndex records).flatMap u32le).length = 9 + 4 * records.length := by
    rw [List.length_append,
      writeHeader_length ⟨FileFormatMagicBytes, FileFormatVersion, records.length % 2^32⟩ rfl,
      flatMap_u32le_length, hrl]
  have hdropW : (Write records).drop
      (headerSize + records.length * recordIndexSize + prefSize records k)
      = (records.drop k).flatten := by
    rw [hsplit]
    have harith : headerSize + records.length * recordIndexSize + prefSize records k
        = (9 + 4 * records.length) + prefSize records k := by
      simp only [headerSize, recordIndexSize]
      omega
    rw [harith, ← hAlen, drop_append_len, flatten_drop_prefSize]
  have hcond : ((recIndex records).length + 2^32 - 1) % 2^32 = records.length - 1 := by
    rw [hrl]; omega
  simp only [RecordBatch.Record, hcond]
  rw [if_neg (by omega : ¬ records.length ≤ k)]
  by_cases hlast : k = records.length - 1
  · rw [if_pos hlast, hfo, hdropW, flatten_drop_last records k (by omega)]
  · rw [if_neg hlast]
    have hk1 : k + 1 < records.length := by omega
    have hsz : RecordBatch.recordSize
        ⟨⟨FileFormatMagicBytes, 1, records.length⟩, recIndex records, Write records⟩ k
        = (records.getD k []).length := by
      simp only [RecordBatch.recordSize]
      have h1 : (recIndex records).getD (k + 1) 0 = prefSize records (k + 1) := by
        rw [hri, offsetsFrom_getD _ _ _ (by simpa using hk1)]
        simp [prefSize]
      rw [h1, hgetD, prefSize_succ records k hk]
      have hL := getD_length_le_totalSize records k hk
      omega
    have hdc := flatten_drop_cons records k hk
    have hguard : ¬ (((Write records).drop (RecordBatch.fileOffset
        ⟨⟨FileFormatMagicBytes, 1, records.length⟩, recIndex records, Write records⟩ k)).length
        < RecordBatch.recordSize
        ⟨⟨FileFormatMagicBytes, 1, records.length⟩, recIndex records, Write records⟩ k) := by
      rw [hfo, hdropW, hsz, hdc, List.length_append]
      omega
    rw [if_neg hguard, hfo, hdropW, hsz, hdc, List.take_left' rfl]

/-! ## Topic storage (package `storage`, `topicstorage.go`) -/

def recordBatchExtension : String := ".record_batch"

/-- `fmt.Sprintf("%012d", n)`: decimal digits of `n`, zero-padded to width
12. -/
def pad12 (n : Nat) : String :=
  String.mk (List.replicate (12 - (Nat.repr n).length) '0') ++ Nat.repr n

/-- `filepath.Join` of two clean, non-empty path components. -/
def pathJoin (a b : String) : String := a ++ "/" ++ b

/-- `RecordBatchPath`: the symbolic path of the topicName and the
recordBatchID. -/
def RecordBatchPath (topicName : String) (recordBatchID : Nat) : String :=
  pathJoin topicName (pad12 recordBatchID ++ recordBatchExtension)

/-- Map update for the path-keyed stores: a writer's close atomically installs
the blob under the key, replacing any prior value. -/
def assocPut {α : Type} (m : List (String × α)) (k : String) (v : α) : List (String × α) :=
  (k, v) :: m.filter fun kv => kv.1 != k

/-- The in-memory state of one topic's log plus the contents of the two
path-keyed stores it can touch: the authoritative backing storage and the
best-effort cache (`none` models a nil `*DiskCache`). -/
structure TopicStorage where
  topicPath : String
  nextRecordID : Nat
  recordBatchIDs : List Nat
  backing : List (String × List Nat)
  cache : Option (List (String × List Nat))
deriving DecidableEq, Repr

/-- Failure injection for the backing-store writer used by
`AddRecordBatch`: `Writer()` can fail to open, `recordbatch.Write` can fail
mid-stream, and the (deferred) `Close()` can fail. -/
inductive WriterFault where
  | noFault
  | openFail
  | writeFail
  | closeFail
deriving DecidableEq, Repr

/-- `AddRecordBatch(recordBatch)`: reserve `recordBatchID = nextRecordID`,
open a backing-store writer, serialise the batch, then append the id, advance
`nextRecordID` (uint64), and best-effort mirror to the cache.  `f.Close()` is
deferred, so it runs at function exit and its error is discarded: per the
backing-store contract the write becomes visible only on successful close, so
under `closeFail` no file is committed, while the in-memory state is still
updated and no error is returned.  Cache-writer failures are logged and
swallowed; the model's cache writes always succeed. -/
def AddRecordBatch (s : TopicStorage) (fault : WriterFault) (recordBatch : List (List Nat)) :
    Except Err TopicStorage :=
  match fault with
  | .openFail => .error .writerOpenErr
  | .writeFail => .error .writerWriteErr
  | _ =>
    .ok { s with
      recordBatchIDs := s.recordBatchIDs ++ [s.nextRecordID]
      nextRecordID := (s.nextRecordID + recordBatch.length) % 2^64
      backing :=
        if fault = .closeFail then s.backing
        else assocPut s.backing (RecordBatchPath s.topicPath s.nextRecordID) (Write recordBatch)
      cache := s.cache.map fun c =>
        assocPut c (RecordBatchPath s.topicPath s.nextRecordID) (Write recordBatch) }

/-- The scan of `ReadRecord`: walk `recordBatchIDs` from the last entry
backwards and take the first id `≤ recordID` (zero when none matches). -/
def findBatchIDAux : List Nat → Nat → Nat
  | [], _ => 0
  | id :: rest, recordID => if id ≤ recordID then id else findBatchIDAux rest recordID

def findBatchID (ids : List Nat) (recordID : Nat) : Nat :=
  findBatchIDAux ids.reverse recordID

/-- The read path of `ReadRecord`: try the cache reader first (its failure is
only logged), fall back to the backing storage. -/
def readFile (s : TopicStorage) (p : String) : Option (List Nat) :=
  match s.cache with
  | some c =>
    match c.lookup p with
    | some bs => some bs
    | none => s.backing.lookup p
  | none => s.backing.lookup p

/-- `ReadRecord(recordID)`: out-of-bounds for `recordID ≥ nextRecordID`;
otherwise locate the batch id, read the file (cache first, then backing
storage), parse it, and return record `uint32(recordID - recordBatchID)`. -/
def ReadRecord (s : TopicStorage) (recordID : Nat) : Except Err (List Nat) :=
  if s.nextRecordID ≤ recordID then .error .outOfBounds
  else
    match readFile s (RecordBatchPath s.topicPath (findBatchID s.recordBatchIDs recordID)) with
    | none => .error .notInStorage
    | some bs =>
      match Parse bs with
      | .error e => .error e
      | .ok rb => rb.Record ((recordID - findBatchID s.recordBatchIDs recordID) % 2^32)

def readRecordBatchHeader (backing : List (String × List Nat)) (topicPath : String)
    (recordBatchID : Nat) : Except Err Header :=
  match backing.lookup (RecordBatchPath topicPath recordBatchID) with
  | none => .error .notInStorage
  | some bs =>
    match Parse bs with
    | .error e => .error e
    | .ok rb => .ok rb.header

structure File where
  size : Nat
  path : String
deriving DecidableEq, Repr

/-- Model of `uint64y.FromString`: base-10 `strconv.ParseUint` into 64
bits. -/
def parseUint64 (digits : String) : Option Nat :=
  if digits.length = 0 then none
  else if digits.toList.all Char.isDigit then
    if (digits.toList.foldl (fun acc c => acc * 10 + (c.toNat - 48)) 0) < 2^64 then
      some (digits.toList.foldl (fun acc c => acc * 10 + (c.toNat - 48)) 0)
    else none
  else none

/-- `path.Base`: the last `/`-separated component (of a clean path). -/
def pathBase (p : String) : String :=
  String.mk ((p.toList.splitOn '/').getLastD p.toList)

/-- The per-file step of `listRecordBatchIDs`: strip the `.record_batch`
extension from the base name and parse the remaining stem as a uint64. -/
def parseBatchStem (p : String) : Option Nat :=
  parseUint64 (String.mk
    ((pathBase p).toList.take ((pathBase p).length - recordBatchExtension.length)))

def parseBatchIDs : List File → Except Err (List Nat)
  | [] => .ok []
  | f :: fs =>
    match parseBatchStem f.path with
    | none => .error .parseIDErr
    | some id =>
      match parseBatchIDs fs with
      | .error e => .error e
      | .ok ids => .ok (id :: ids)

/-- `listRecordBatchIDs`: parse each listed filename's stem as the batch's
first offset and sort ascending (`sort.Slice` with `<`; on `Nat` the sorted
permutation is unique, so any correct sort is extensionally the same). -/
def listRecordBatchIDs (files : List File) : Except Err (List Nat) :=
  match parseBatchIDs files with
  | .error e => .error e
  | .ok ids => .ok (List.insertionSort (· ≤ ·) ids)

/-- Modelled from the spec: §4.2 `ListFiles(prefix, suffix)` of the
backing-store implementations (which are not under src/): list the keys
under the normalised prefix (trailing `/` ensured) whose names end in the
suffix, as `{path, size}` pairs. -/
def ListFiles (backing : List (String × List Nat)) (topicPath ext : String) : List File :=
  (backing.filter fun kv =>
      (topicPath ++ "/").toList.isPrefixOf kv.1.toList
        && ext.toList.isSuffixOf kv.1.toList).map
    fun kv => ⟨kv.2.length, kv.1⟩

/-- `NewTopicStorage`: list the topic's record-batch ids; when at least one
batch exists, read the newest batch's header and set
`nextRecordID = newestRecordBatchID + NumRecords` (uint64); otherwise leave
`nextRecordID` zero. -/
def NewTopicStorage (backing : List (String × List Nat)) (rootDir topic : String)
    (cache : Option (List (String × List Nat))) : Except Err TopicStorage :=
  match listRecordBatchIDs (ListFiles backing (pathJoin rootDir topic) recordBatchExtension) with
  | .error e => .error e
  | .ok recordBatchIDs =>
    if 0 < recordBatchIDs.length then
      match readRecordBatchHeader backing (pathJoin rootDir topic) (recordBatchIDs.getLastD 0) with
      | .error e => .error e
      | .ok hdr => .ok ⟨pathJoin rootDir topic,
          (recordBatchIDs.getLastD 0 + hdr.numRecords) % 2^64, recordBatchIDs, backing, cache⟩
    else .ok ⟨pathJoin rootDir topic, 0, recordBatchIDs, backing, cache⟩

/-! ## Storage-layer lemmas -/

theorem assocPut_lookup {α : Type} (m : List (String × α)) (k : String) (v : α) :
    (assocPut m k v).lookup k = some v := by
  simp [assocPut, List.lookup]

theorem AddRecordBatch_noFault (s : TopicStorage) (R : List (List Nat)) :
    AddRecordBatch s .noFault R = .ok
      { s with
        recordBatchIDs := s.recordBatchIDs ++ [s.nextRecordID]
        nextRecordID := (s.nextRecordID + R.length) % 2^64
        backing := assocPut s.backing (RecordBatchPath s.topicPath s.nextRecordID) (Write R)
        cache := s.cache.map fun c =>
          assocPut c (RecordBatchPath s.topicPath s.nextRecordID) (Write R) } := by
  simp [AddRecordBatch]

theorem findBatchID_append_last (ids : List Nat) (n x : Nat) (hn : n ≤ x) :
    findBatchID (ids ++ [n]) x = n := by
  simp [findBatchID, List.reverse_append, findBatchIDAux, hn]

/-- After a successful append, reading any record of the fresh batch finds the
freshly committed file (cache hit if a cache is configured, else the backing
store). -/
theorem readFile_after_add (s : TopicStorage) (R : List (List Nat)) (s2 : TopicStorage)
    (hadd : AddRecordBatch s .noFault R = .ok s2) :
    readFile s2 (RecordBatchPath s.topicPath s.nextRecordID) = some (Write R) := by
  rw [AddRecordBatch_noFault, Except.ok.injEq] at hadd
  subst hadd
  cases hc : s.cache with
  | none => simp [readFile, hc, assocPut_lookup]
  | some c => simp [readFile, hc, assocPut_lookup]

/-- Claim C1: round-trip.  For every non-empty record batch `R` appended with
`AddRecordBatch` starting at offset `s.nextRecordID`, a subsequent
`ReadRecord(startOffset + i)` (for every `i < len R`) returns exactly `R[i]`,
byte for byte.  (The batch fits the format: its serialised size stays below
the `uint32` index range, and offsets stay below `2^64`.) -/
theorem claim_C1_roundtrip (s s2 : TopicStorage) (R : List (List Nat)) (i : Nat)
    (hR : R ≠ []) (hi : i < R.length)
    (hsize : 9 + 4 * R.length + totalSize R < 2^32)
    (hnext : s.nextRecordID + R.length < 2^64)
    (hadd : AddRecordBatch s .noFault R = .ok s2) :
    ReadRecord s2 (s.nextRecordID + i) = .ok (R.getD i []) := by
  have hread := readFile_after_add s R s2 hadd
  rw [AddRecordBatch_noFault, Except.ok.injEq] at hadd
  subst hadd
  have hlen : R.length < 2^32 := by omega
  have hmod : (s.nextRecordID + R.length) % 2^64 = s.nextRecordID + R.length :=
    Nat.mod_eq_of_lt hnext
  have hfind : findBatchID (s.recordBatchIDs ++ [s.nextRecordID]) (s.nextRecordID + i) =
      s.nextRecordID :=
    findBatchID_append_last _ _ _ (Nat.le_add_right _ _)
  rw [ReadRecord]
  dsimp only
  simp only [hmod, hfind] at hread ⊢
  rw [if_neg (by omega)]
  rw [hread]
  dsimp only
  rw [Parse_Write R hlen]
  dsimp only
  have : (s.nextRecordID + i - s.nextRecordID) % 2^32 = i := by
    have : s.nextRecordID + i - s.nextRecordID = i := by omega
    rw [this]
    exact Nat.mod_eq_of_lt (by omega)
  rw [this]
  exact Record_Write R i hi hsize

/-- Claim C1 witness: a concrete one-record append followed by a read. -/
theorem claim_C1_roundtrip_witness :
    (([[7, 8]] : List (List Nat)) ≠ [] ∧ 0 < ([[7, 8]] : List (List Nat)).length) ∧
    ReadRecord
      { topicPath := "root/t", nextRecordID := 1, recordBatchIDs := [0]
        backing := assocPut [] (RecordBatchPath "root/t" 0) (Write [[7, 8]])
        cache := Option.none }
      (0 + 0) = .ok ([[7, 8]].getD 0 []) :=
  ⟨⟨by decide, by decide⟩,
    claim_C1_roundtrip ⟨"root/t", 0, [], [], Option.none⟩ _ [[7, 8]] 0
      (by decide) (by decide) (by decide) (by decide)
      (by rw [AddRecordBatch_noFault]; rfl)⟩

/-- Claim C2 (code bug): `AddRecordBatch` ignores the deferred `f.Close()`
error.  Evaluated at a fresh topic with one record and a backing writer whose
close fails: the call returns success and still advances `nextRecordID` to 1
and appends batch id 0, with nothing committed to the backing store — where
the spec requires an error and unchanged state. -/
theorem claim_C2_close_fail_not_atomic :
    AddRecordBatch ⟨"dir/topic", 0, [], [], Option.none⟩ .closeFail [[104, 105]]
      = .ok ⟨"dir/topic", 1, [0], [], Option.none⟩ := rfl

theorem not_sorted_lt_append_pair (l : List Nat) (a : Nat) :
    ¬ List.Sorted (· < ·) (l ++ [a, a]) := by
  intro h
  rw [List.Sorted, List.pairwise_append] at h
  have h2 := h.2.1
  rw [List.pairwise_cons] at h2
  exact absurd (h2.1 a (List.mem_singleton.mpr rfl)) (lt_irrefl a)

/-- Claim C10: an empty `AddRecordBatch` succeeds, leaves `nextRecordID`
unchanged, still writes a batch file named with the current `nextRecordID` and
appends that id to `recordBatchIDs`; a later non-empty batch reuses the
identical file name (overwriting), and the id list ends in a duplicate, so it
is no longer strictly increasing. -/
theorem claim_C10_empty_batch (s : TopicStorage) (R : List (List Nat))
    (hR : R ≠ []) (hn : s.nextRecordID < 2^64) :
    ∃ s1 s2,
      AddRecordBatch s .noFault [] = .ok s1 ∧
      s1.nextRecordID = s.nextRecordID ∧
      s1.recordBatchIDs = s.recordBatchIDs ++ [s.nextRecordID] ∧
      s1.backing.lookup (RecordBatchPath s.topicPath s.nextRecordID) = some (Write []) ∧
      AddRecordBatch s1 .noFault R = .ok s2 ∧
      s2.recordBatchIDs = s.recordBatchIDs ++ [s.nextRecordID, s.nextRecordID] ∧
      s2.backing.lookup (RecordBatchPath s.topicPath s.nextRecordID) = some (Write R) ∧
      ¬ List.Sorted (· < ·) s2.recordBatchIDs := by
  have hmod : (s.nextRecordID + ([] : List (List Nat)).length) % 2^64 = s.nextRecordID := by
    simpa using Nat.mod_eq_of_lt hn
  refine ⟨_, _, AddRecordBatch_noFault s [], ?_, ?_, ?_, AddRecordBatch_noFault _ R, ?_, ?_, ?_⟩
  · exact hmod
  · rfl
  · exact assocPut_lookup _ _ _
  · dsimp only
    rw [hmod, List.append_assoc]
    rfl
  · dsimp only
    rw [hmod]
    exact assocPut_lookup _ _ _
  · dsimp only
    rw [hmod, List.append_assoc]
    exact not_sorted_lt_append_pair _ _

/-- Claim C10 witness: empty batch then a one-record batch on a fresh
topic. -/
theorem claim_C10_empty_batch_witness :
    (([[1]] : List (List Nat)) ≠ [] ∧ (0 : Nat) < 2^64) ∧
    ∃ s1 s2,
      AddRecordBatch ⟨"d/t", 0, [], [], Option.none⟩ .noFault [] = .ok s1 ∧
      s1.nextRecordID = 0 ∧
      s1.recordBatchIDs = [] ++ [0] ∧
      s1.backing.lookup (RecordBatchPath "d/t" 0) = some (Write []) ∧
      AddRecordBatch s1 .noFault [[1]] = .ok s2 ∧
      s2.recordBatchIDs = [] ++ [0, 0] ∧
      s2.backing.lookup (RecordBatchPath "d/t" 0) = some (Write [[1]]) ∧
      ¬ List.Sorted (· < ·) s2.recordBatchIDs :=
  ⟨⟨by decide, by decide⟩,
    claim_C10_empty_batch ⟨"d/t", 0, [], [], Option.none⟩ [[1]] (by decide) (by decide)⟩

/-! ## The ReadRecord contract (claim C3) -/

theorem findBatchIDAux_max (l : List Nat) (x : Nat)
    (hdesc : l.Pairwise (· ≥ ·)) (hex : ∃ id ∈ l, id ≤ x) :
    findBatchIDAux l x ∈ l ∧ findBatchIDAux l x ≤ x ∧
      ∀ id ∈ l, id ≤ x → id ≤ findBatchIDAux l x := by
  induction l with
  | nil => simp at hex
  | cons a rest ih =>
    rw [List.pairwise_cons] at hdesc
    by_cases ha : a ≤ x
    · refine ⟨by simp [findBatchIDAux, ha], by simp [findBatchIDAux, ha], ?_⟩
      intro id hid _
      simp only [findBatchIDAux, if_pos ha]
      rcases List.mem_cons.mp hid with rfl | hmem
      · exact Nat.le_refl _
      · exact hdesc.1 id hmem
    · have hex2 : ∃ id ∈ rest, id ≤ x := by
        rcases hex with ⟨id, hid, hx⟩
        rcases List.mem_cons.mp hid with rfl | hmem
        · exact absurd hx ha
        · exact ⟨id, hmem, hx⟩
      obtain ⟨h1, h2, h3⟩ := ih hdesc.2 hex2
      rw [show findBatchIDAux (a :: rest) x = findBatchIDAux rest x by
        simp [findBatchIDAux, ha]]
      refine ⟨List.mem_cons_of_mem a h1, h2, ?_⟩
      intro id hid hx
      rcases List.mem_cons.mp hid with rfl | hmem
      · exact absurd hx ha
      · exact h3 id hmem hx

/-- On an ascending id list the backwards scan of `ReadRecord` returns the
largest id that is `≤ x`, provided one exists. -/
theorem findBatchID_max (ids : List Nat) (x : Nat)
    (hsort : ids.Pairwise (· ≤ ·)) (hex : ∃ id ∈ ids, id ≤ x) :
    findBatchID ids x ∈ ids ∧ findBatchID ids x ≤ x ∧
      ∀ id ∈ ids, id ≤ x → id ≤ findBatchID ids x := by
  have hdesc : ids.reverse.Pairwise (· ≥ ·) := List.pairwise_reverse.mpr hsort
  have hex2 : ∃ id ∈ ids.reverse, id ≤ x := by
    rcases hex with ⟨id, hid, hx⟩
    exact ⟨id, List.mem_reverse.mpr hid, hx⟩
  obtain ⟨h1, h2, h3⟩ := findBatchIDAux_max ids.reverse x hdesc hex2
  exact ⟨List.mem_reverse.mp h1, h2,
    fun id hid hx => h3 id (List.mem_reverse.mpr hid) hx⟩

theorem map_length_getD (B : List (List (List Nat))) (j : Nat) (hj : j < B.length) :
    (B.map List.length).getD j 0 = (B.getD j []).length := by
  induction B generalizing j with
  | nil => simp at hj
  | cons b rest ih =>
    cases j with
    | zero => simp
    | succ j => exact ih j (by simpa using hj)

theorem getD_mem {α : Type} (l : List α) (d : α) (j : Nat) (hj : j < l.length) :
    l.getD j d ∈ l := by
  rw [List.getD_eq_getElem l d hj]
  exact List.getElem_mem hj

theorem sum_take_succ_nat (l : List Nat) (j : Nat) (hj : j < l.length) :
    (l.take (j + 1)).sum = (l.take j).sum + l.getD j 0 := by
  induction l generalizing j with
  | nil => simp at hj
  | cons n rest ih =>
    cases j with
    | zero => simp
    | succ j =>
      have h := ih j (by simpa using hj)
      simp only [List.take_succ_cons, List.sum_cons, List.getD_cons_succ, h]
      omega

/-- Claim C3: the `ReadRecord` contract.  Over any topic state whose
in-memory index describes a well-formed contiguous sequence of stored batches
`B` (batch `j` non-empty, serialised under its first offset, sizes within the
format's range): `ReadRecord(offset)` fails with the out-of-bounds sentinel
exactly when `offset ≥ nextRecordID` (the function reads no mutable state, so
the topic state is unchanged by construction); otherwise it selects the batch
whose first offset is the largest id `≤ offset` in the id list and returns
the record at index `offset − firstOffset` inside that batch. -/
theorem claim_C3_readrecord_contract (s : TopicStorage) (B : List (List (List Nat)))
    (offset : Nat)
    (hids : s.recordBatchIDs = offsetsFrom (B.map List.length) 0)
    (hnext : s.nextRecordID = (B.map List.length).sum)
    (hne : ∀ b ∈ B, b ≠ [])
    (hbound : ∀ b ∈ B, 9 + 4 * b.length + totalSize b < 2^32)
    (hstored : ∀ j, j < B.length →
      readFile s (RecordBatchPath s.topicPath ((offsetsFrom (B.map List.length) 0).getD j 0))
        = some (Write (B.getD j []))) :
    (s.nextRecordID ≤ offset → ReadRecord s offset = .error .outOfBounds) ∧
    (offset < s.nextRecordID →
      ReadRecord s offset ≠ .error .outOfBounds ∧
      ∃ j, j < B.length ∧
        s.recordBatchIDs.getD j 0 = findBatchID s.recordBatchIDs offset ∧
        findBatchID s.recordBatchIDs offset ≤ offset ∧
        (∀ id ∈ s.recordBatchIDs, id ≤ offset → id ≤ findBatchID s.recordBatchIDs offset) ∧
        ReadRecord s offset =
          .ok ((B.getD j []).getD (offset - findBatchID s.recordBatchIDs offset) [])) := by
  constructor
  · intro hle
    rw [ReadRecord, if_pos hle]
  · intro hlt
    have hsort : (offsetsFrom (B.map List.length) 0).Pairwise (· ≤ ·) :=
      offsetsFrom_pairwise _ _
    have hex : ∃ id ∈ offsetsFrom (B.map List.length) 0, id ≤ offset := by
      cases B with
      | nil => rw [hnext] at hlt; simp at hlt
      | cons b0 rest => exact ⟨0, by simp [offsetsFrom], Nat.zero_le _⟩
    obtain ⟨hmem, hble, hmax⟩ := findBatchID_max _ offset hsort hex
    obtain ⟨j, hj, hgetj⟩ := List.mem_iff_getElem.mp hmem
    have hlenOf : (offsetsFrom (B.map List.length) 0).length = B.length := by
      rw [offsetsFrom_length, List.length_map]
    have hjB : j < B.length := hlenOf ▸ hj
    have hjns : j < (B.map List.length).length := by simpa using hjB
    have hgetDj : (offsetsFrom (B.map List.length) 0).getD j 0 =
        findBatchID (offsetsFrom (B.map List.length) 0) offset := by
      rw [List.getD_eq_getElem _ 0 hj, hgetj]
    have hbval : findBatchID (offsetsFrom (B.map List.length) 0) offset =
        ((B.map List.length).take j).sum := by
      rw [← hgetDj, offsetsFrom_getD _ _ _ hjns, Nat.zero_add]
    have hnsj : (B.map List.length).getD j 0 = (B.getD j []).length :=
      map_length_getD B j hjB
    have hBj_mem : B.getD j [] ∈ B := getD_mem B [] j hjB
    have hBj_ne : (B.getD j []).length ≠ 0 := by
      have := hne _ hBj_mem
      simpa [List.length_eq_zero] using this
    have hBj_bound : 9 + 4 * (B.getD j []).length + totalSize (B.getD j []) < 2^32 :=
      hbound _ hBj_mem
    -- offset lies inside batch j
    have hinside : offset < findBatchID (offsetsFrom (B.map List.length) 0) offset
        + (B.getD j []).length := by
      by_contra hcon
      push_neg at hcon
      have hsucc : ((B.map List.length).take (j + 1)).sum =
          findBatchID (offsetsFrom (B.map List.length) 0) offset + (B.getD j []).length := by
        rw [sum_take_succ_nat _ j hjns, hnsj, hbval]
      by_cases hj1 : j + 1 < (B.map List.length).length
      · have hmemj1 : (offsetsFrom (B.map List.length) 0).getD (j + 1) 0 ∈
            offsetsFrom (B.map List.length) 0 :=
          getD_mem _ 0 (j + 1) (by rw [offsetsFrom_length]; exact hj1)
        have hval : (offsetsFrom (B.map List.length) 0).getD (j + 1) 0 =
            ((B.map List.length).take (j + 1)).sum := by
          rw [offsetsFrom_getD _ _ _ hj1, Nat.zero_add]
        have hle2 : (offsetsFrom (B.map List.length) 0).getD (j + 1) 0 ≤ offset := by
          rw [hval, hsucc]; exact hcon
        have := hmax _ hmemj1 hle2
        rw [hval, hsucc] at this
        omega
      · have hj1eq : j + 1 = (B.map List.length).length := by omega
        have : ((B.map List.length).take (j + 1)).sum = (B.map List.length).sum := by
          rw [hj1eq, List.take_length]
        rw [this, ← hnext] at hsucc
        omega
    have hk : offset - findBatchID (offsetsFrom (B.map List.length) 0) offset
        < (B.getD j []).length := by omega
    -- evaluate ReadRecord
    have hstoredj := hstored j hjB
    rw [hgetDj] at hstoredj
    have heval : ReadRecord s offset =
        .ok ((B.getD j []).getD
          (offset - findBatchID (offsetsFrom (B.map List.length) 0) offset) []) := by
      rw [ReadRecord, if_neg (by omega), hids, hstoredj]
      dsimp only
      rw [Parse_Write _ (by omega)]
      dsimp only
      have hmod : (offset - findBatchID (offsetsFrom (B.map List.length) 0) offset) % 2^32
          = offset - findBatchID (offsetsFrom (B.map List.length) 0) offset :=
        Nat.mod_eq_of_lt (by omega)
      rw [hmod]
      exact Record_Write _ _ hk hBj_bound
    constructor
    · rw [heval]; simp
    · exact ⟨j, hjB, by rw [hids]; exact hgetDj, by rw [hids]; exact hble,
        by rw [hids]; exact hmax, by rw [hids]; exact heval⟩

def c3B : List (List (List Nat)) := [[[1], [2]], [[3]]]

def c3State : TopicStorage :=
  { topicPath := "r/t", nextRecordID := 3, recordBatchIDs := [0, 2]
    backing := assocPut (assocPut [] (RecordBatchPath "r/t" 0) (Write [[1], [2]]))
      (RecordBatchPath "r/t" 2) (Write [[3]])
    cache := Option.none }

/-- Claim C3 witness: two stored batches (first offsets 0 and 2), reading
offset 1 selects batch id 0 and returns its second record. -/
theorem claim_C3_readrecord_contract_witness :
    (c3State.recordBatchIDs = offsetsFrom (c3B.map List.length) 0) ∧
    ((c3State.nextRecordID ≤ 1 → ReadRecord c3State 1 = .error .outOfBounds) ∧
      (1 < c3State.nextRecordID →
        ReadRecord c3State 1 ≠ .error .outOfBounds ∧
        ∃ j, j < c3B.length ∧
          c3State.recordBatchIDs.getD j 0 = findBatchID c3State.recordBatchIDs 1 ∧
          findBatchID c3State.recordBatchIDs 1 ≤ 1 ∧
          (∀ id ∈ c3State.recordBatchIDs, id ≤ 1 →
            id ≤ findBatchID c3State.recordBatchIDs 1) ∧
          ReadRecord c3State 1 =
            .ok ((c3B.getD j []).getD (1 - findBatchID c3State.recordBatchIDs 1) []))) :=
  ⟨by decide,
    claim_C3_readrecord_contract c3State c3B 1 (by decide) (by decide) (by decide)
      (by decide) (by decide)⟩

/-! ## Broker (package `storage`, `storage.go` of the later layout) -/

namespace broker

/-- Modelled from the spec: the per-topic append-log handle (spec §4.4; the
`topic` package itself is not under src/, only its broker callers are).
Offsets are dense in `[0, nextOffset)` (§3), so the log is the list of its
committed records in offset order. -/
structure Topic where
  records : List (List Nat)
deriving DecidableEq, Repr

/-- Modelled from the spec: `nextOffset` of the topic — one past the last
committed offset. -/
def Topic.NextOffset (t : Topic) : Nat := t.records.length

/-- Modelled from the spec: `ReadRecord(offset)` of the topic log — fails
with *out-of-bounds* when `offset ≥ nextOffset`, else returns the record at
`offset`. -/
def Topic.ReadRecord (t : Topic) (offset : Nat) : Except Err (List Nat) :=
  if t.records.length ≤ offset then .error .outOfBounds
  else .ok (t.records.getD offset [])

/-- Modelled from the spec: §4.4 `OffsetCond.Wait(ctx, target)` — blocks
until `nextOffset > target` or ctx is done, returning the context's error on
cancellation.  In this sequential model a wait that would block forever (no
concurrent writer) is the distinguished `wouldBlock` outcome. -/
def OffsetCondWait (t : Topic) (ctxCancelled : Bool) (target : Nat) : Except Err Unit :=
  if ctxCancelled then .error .ctxCanceled
  else if target < t.NextOffset then .ok ()
  else .error .wouldBlock

/-- Modelled from the spec: the record-collection loop of §4.4
`ReadRecords` — yield records until `maxRecords` are collected or the
cumulative byte size would exceed `softMaxBytes` (always yielding at least
one record; `softMaxBytes = 0` disables the cap). -/
def collectRecords : List (List Nat) → Nat → Nat → Nat → Bool → List (List Nat)
  | [], _, _, _, _ => []
  | _, 0, _, _, _ => []
  | r :: rest, m + 1, softMaxBytes, gotBytes, isFirst =>
    if isFirst = true ∨ softMaxBytes = 0 ∨ gotBytes + r.length ≤ softMaxBytes then
      r :: collectRecords rest m softMaxBytes (gotBytes + r.length) false
    else []

/-- Modelled from the spec: §4.4 `ReadRecords(ctx, startOffset, maxRecords,
softMaxBytes)` — walk forward from `startOffset`, already-cancelled contexts
yield nothing. -/
def Topic.ReadRecords (t : Topic) (ctxCancelled : Bool)
    (startOffset maxRecords softMaxBytes : Nat) : List (List Nat) :=
  if ctxCancelled then []
  else collectRecords (t.records.drop startOffset) maxRecords softMaxBytes 0 true

/-- The broker (type `Storage` of the later `storage` package): the
auto-create flag, the topic factory, and the `topicName → topicBatcher` map.
The batcher half of `topicBatcher` is not modelled: no claim exercises
`AddRecord`'s batcher path. -/
structure Storage where
  autoCreateTopics : Bool
  topicFactory : String → Except Err Topic
  topicBatchers : List (String × Topic)

/-- `getTopicBatcher`: return the live topic; otherwise fail with
*topic-not-found* when auto-create is off, else build the topic via the
factory and install it in the map. -/
def Storage.getTopicBatcher (s : Storage) (topicName : String) :
    Except Err (Topic × Storage) :=
  match s.topicBatchers.lookup topicName with
  | some tb => .ok (tb, s)
  | none =>
    if !s.autoCreateTopics then .error .topicNotFound
    else
      match s.topicFactory topicName with
      | .error e => .error e
      | .ok t => .ok (t, { s with topicBatchers := assocPut s.topicBatchers topicName t })

/-- `CreateTopic(name)`: *topic-already-exists* if the name is live in the
map; else build the topic, and if the freshly opened log has
`nextOffset ≠ 0`, fail with *topic-already-exists* without installing;
otherwise install. -/
def Storage.CreateTopic (s : Storage) (topicName : String) : Except Err Storage :=
  if (s.topicBatchers.lookup topicName).isSome then .error .topicAlreadyExists
  else
    match s.topicFactory topicName with
    | .error e => .error e
    | .ok t =>
      if t.NextOffset ≠ 0 then .error .topicAlreadyExists
      else .ok { s with topicBatchers := assocPut s.topicBatchers topicName t }

/-- `GetRecord(topicName, offset)`: look up (or auto-create) the topic, then
`ReadRecord`.  Returns the result together with the broker state after the
call (the Go method mutates the map through `getTopicBatcher`). -/
def Storage.GetRecord (s : Storage) (topicName : String) (offset : Nat) :
    Except Err (List Nat) × Storage :=
  match s.getTopicBatcher topicName with
  | .error e => (.error e, s)
  | .ok (t, s2) => (t.ReadRecord offset, s2)

/-- `GetRecords(ctx, topicName, offset, maxRecords, softMaxBytes)`:
substitute the default 10 for `maxRecords = 0`, look up (or auto-create) the
topic, wait for `offset` to become available, then `ReadRecords`. -/
def Storage.GetRecords (s : Storage) (ctxCancelled : Bool) (topicName : String)
    (offset maxRecords softMaxBytes : Nat) : Except Err (List (List Nat)) × Storage :=
  match s.getTopicBatcher topicName with
  | .error e => (.error e, s)
  | .ok (t, s2) =>
    match OffsetCondWait t ctxCancelled offset with
    | .error e => (.error e, s2)
    | .ok _ =>
      (.ok (t.ReadRecords ctxCancelled offset
        (if maxRecords = 0 then 10 else maxRecords) softMaxBytes), s2)

/-- `Metadata(topicName)`: the topic's metadata; only the `nextOffset`
component is modelled (`latestCommitAt` is a wall-clock instant). -/
def Storage.Metadata (s : Storage) (topicName : String) : Except Err Nat × Storage :=
  match s.getTopicBatcher topicName with
  | .error e => (.error e, s)
  | .ok (t, s2) => (.ok t.NextOffset, s2)

end broker

theorem collectRecords_soft_zero (rs : List (List Nat)) (m gotBytes : Nat) (isFirst : Bool) :
    broker.collectRecords rs m 0 gotBytes isFirst = rs.take m := by
  induction rs generalizing m gotBytes isFirst with
  | nil => cases m <;> rfl
  | cons r rest ih =>
    cases m with
    | zero => rfl
    | succ m =>
      show (if isFirst = true ∨ (0 : Nat) = 0 ∨ gotBytes + r.length ≤ 0 then
          r :: broker.collectRecords rest m 0 (gotBytes + r.length) false
        else []) = r :: rest.take m
      rw [if_pos (Or.inr (Or.inl rfl)), ih]

/-- Claim C7: `CreateTopic` semantics — fails with *topic-already-exists*
when the name is live in the map; otherwise builds the log, fails with
*topic-already-exists* (without installing) when the freshly opened log's
`nextOffset` differs from 0; otherwise installs the topic and succeeds. -/
theorem claim_C7_create_topic (s : broker.Storage) (name : String) :
    ((s.topicBatchers.lookup name).isSome →
      s.CreateTopic name = .error .topicAlreadyExists) ∧
    (∀ t, s.topicBatchers.lookup name = Option.none → s.topicFactory name = .ok t →
      t.NextOffset ≠ 0 → s.CreateTopic name = .error .topicAlreadyExists) ∧
    (∀ t, s.topicBatchers.lookup name = Option.none → s.topicFactory name = .ok t →
      t.NextOffset = 0 →
      s.CreateTopic name =
        .ok { s with topicBatchers := assocPut s.topicBatchers name t }) := by
  refine ⟨?_, ?_, ?_⟩
  · intro h
    rw [broker.Storage.CreateTopic, if_pos h]
  · intro t hnone hfac hnz
    rw [broker.Storage.CreateTopic, if_neg (by simp [hnone]), hfac]
    dsimp only
    rw [if_pos hnz]
  · intro t hnone hfac hz
    rw [broker.Storage.CreateTopic, if_neg (by simp [hnone]), hfac]
    dsimp only
    rw [if_neg (by simp [hz])]

/-- Claim C7 witness: creating a fresh topic (factory yields an empty log)
on a broker whose map does not contain it. -/
theorem claim_C7_create_topic_witness :
    ((broker.Storage.mk false (fun _ => .ok ⟨[]⟩) []).topicBatchers.lookup "t"
      = Option.none) ∧
    broker.Storage.CreateTopic (broker.Storage.mk false (fun _ => .ok ⟨[]⟩) []) "t"
      = .ok (broker.Storage.mk false (fun _ => .ok ⟨[]⟩) (assocPut [] "t" ⟨[]⟩)) :=
  ⟨rfl,
    (claim_C7_create_topic (broker.Storage.mk false (fun _ => .ok ⟨[]⟩) []) "t").2.2
      ⟨[]⟩ rfl rfl rfl⟩

/-- Claim C8: with `maxRecords = 0` the broker substitutes the default 10:
on a live topic holding at least 10 records, `GetRecords(ctx, t, 0, 0, 0)`
returns exactly the 10 records at offsets `0..9` and behaves identically to
an explicit `maxRecords = 10` call. -/
theorem claim_C8_default_limit (s : broker.Storage) (name : String) (t : broker.Topic)
    (hlook : s.topicBatchers.lookup name = some t)
    (h10 : 10 ≤ t.records.length) :
    s.GetRecords false name 0 0 0 = (.ok (t.records.take 10), s) ∧
    s.GetRecords false name 0 0 0 = s.GetRecords false name 0 10 0 ∧
    (t.records.take 10).length = 10 := by
  have hgtb : s.getTopicBatcher name = .ok (t, s) := by
    rw [broker.Storage.getTopicBatcher, hlook]
  have hwait : broker.OffsetCondWait t false 0 = .ok () := by
    rw [broker.OffsetCondWait]
    rw [if_neg (by simp)]
    rw [if_pos (by simp only [broker.Topic.NextOffset]; omega)]
  have hread : ∀ m, t.ReadRecords false 0 m 0 = t.records.take m := by
    intro m
    rw [broker.Topic.ReadRecords, if_neg (by simp), List.drop_zero,
      collectRecords_soft_zero]
  refine ⟨?_, ?_, ?_⟩
  · rw [broker.Storage.GetRecords, hgtb]
    dsimp only
    rw [hwait]
    dsimp only
    rw [hread, if_pos rfl]
  · rfl
  · rw [List.length_take]
    omega
/-- Claim C8 witness: a topic holding exactly 10 one-byte records. -/
theorem claim_C8_default_limit_witness :
    ((broker.Storage.mk false (fun _ => .error .topicNotFound)
        [("t", ⟨List.replicate 10 [1]⟩)]).topicBatchers.lookup "t"
      = some ⟨List.replicate 10 [1]⟩ ∧
      10 ≤ (List.replicate 10 ([1] : List Nat)).length) ∧
    (broker.Storage.mk false (fun _ => .error .topicNotFound)
        [("t", ⟨List.replicate 10 [1]⟩)]).GetRecords false "t" 0 0 0
      = (.ok ((List.replicate 10 ([1] : List Nat)).take 10),
        broker.Storage.mk false (fun _ => .error .topicNotFound)
          [("t", ⟨List.replicate 10 [1]⟩)]) :=
  ⟨⟨rfl, by decide⟩,
    (claim_C8_default_limit
      (broker.Storage.mk false (fun _ => .error .topicNotFound)
        [("t", ⟨List.replicate 10 [1]⟩)])
      "t" ⟨List.replicate 10 [1]⟩ rfl (by decide)).1⟩

/-- Claim C9 counterexample: with auto-create enabled, a pure read
(`GetRecord` on a name absent from the map) *does* change the broker's topic
map — `getTopicBatcher` builds and installs the topic on the read path, so
the claim that read-side operations leave the map unchanged for every broker
state is false. -/
theorem claim_C9_reads_install_counterexample :
    (broker.Storage.mk true (fun _ => .ok ⟨[]⟩) []).topicBatchers.lookup "t"
      = Option.none ∧
    ((broker.Storage.mk true (fun _ => .ok ⟨[]⟩) []).GetRecord "t" 0).2.topicBatchers.lookup
      "t" = some ⟨[]⟩ :=
  ⟨rfl, rfl⟩

/-- Claim C9 (amended): when auto-create is disabled, the read-side
operations `GetRecord`, `GetRecords` and `Metadata` on a topic name absent
from the broker's map fail with *topic-not-found* and leave the topic map
unchanged; when auto-create is enabled, such a read itself creates and
installs the topic (besides the installs done by a first
`AddRecord`/`AddRecords` or by `CreateTopic`). -/
theorem claim_C9_amended (s : broker.Storage) (name : String)
    (offset maxRecords softMaxBytes : Nat) (ctx : Bool)
    (habsent : s.topicBatchers.lookup name = Option.none) :
    (s.autoCreateTopics = false →
      s.GetRecord name offset = (.error .topicNotFound, s) ∧
      s.GetRecords ctx name offset maxRecords softMaxBytes = (.error .topicNotFound, s) ∧
      s.Metadata name = (.error .topicNotFound, s)) ∧
    (s.autoCreateTopics = true → ∀ t, s.topicFactory name = .ok t →
      (s.GetRecord name offset).2.topicBatchers = assocPut s.topicBatchers name t ∧
      (s.GetRecords ctx name offset maxRecords softMaxBytes).2.topicBatchers
        = assocPut s.topicBatchers name t ∧
      (s.Metadata name).2.topicBatchers = assocPut s.topicBatchers name t) := by
  constructor
  · intro hoff
    have hgtb : s.getTopicBatcher name = .error .topicNotFound := by
      rw [broker.Storage.getTopicBatcher, habsent]
      dsimp only
      rw [hoff]
      rfl
    refine ⟨?_, ?_, ?_⟩
    · rw [broker.Storage.GetRecord, hgtb]
    · rw [broker.Storage.GetRecords, hgtb]
    · rw [broker.Storage.Metadata, hgtb]
  · intro hon t hfac
    have hgtb : s.getTopicBatcher name =
        .ok (t, { s with topicBatchers := assocPut s.topicBatchers name t }) := by
      rw [broker.Storage.getTopicBatcher, habsent]
      dsimp only
      rw [hon, hfac]
      rfl
    refine ⟨?_, ?_, ?_⟩
    · rw [broker.Storage.GetRecord, hgtb]
    · rw [broker.Storage.GetRecords, hgtb]
      dsimp only
      cases broker.OffsetCondWait t ctx offset with
      | error e => rfl
      | ok u => rfl
    · rw [broker.Storage.Metadata, hgtb]

/-- Claim C9 amended witness: with auto-create off, all three reads on an
absent name return *topic-not-found* with the broker state unchanged; with
auto-create on, each of the three reads installs the topic into the map. -/
theorem claim_C9_amended_witness :
    ((broker.Storage.mk false (fun _ => .ok ⟨[]⟩) []).topicBatchers.lookup "t"
      = Option.none) ∧
    ((broker.Storage.mk false (fun _ => .ok ⟨[]⟩) []).GetRecord "t" 0
        = (.error .topicNotFound, broker.Storage.mk false (fun _ => .ok ⟨[]⟩) []) ∧
      (broker.Storage.mk false (fun _ => .ok ⟨[]⟩) []).GetRecords false "t" 0 0 0
        = (.error .topicNotFound, broker.Storage.mk false (fun _ => .ok ⟨[]⟩) []) ∧
      (broker.Storage.mk false (fun _ => .ok ⟨[]⟩) []).Metadata "t"
        = (.error .topicNotFound, broker.Storage.mk false (fun _ => .ok ⟨[]⟩) [])) ∧
    (((broker.Storage.mk true (fun _ => .ok ⟨[]⟩) []).GetRecord "t" 0).2.topicBatchers
        = assocPut [] "t" ⟨[]⟩ ∧
      ((broker.Storage.mk true (fun _ => .ok ⟨[]⟩) []).GetRecords false "t" 0 0 0).2.topicBatchers
        = assocPut [] "t" ⟨[]⟩ ∧
      ((broker.Storage.mk true (fun _ => .ok ⟨[]⟩) []).Metadata "t").2.topicBatchers
        = assocPut [] "t" ⟨[]⟩) :=
  ⟨rfl,
    (claim_C9_amended (broker.Storage.mk false (fun _ => .ok ⟨[]⟩) []) "t" 0 0 0 false
      rfl).1 rfl,
    (claim_C9_amended (broker.Storage.mk true (fun _ => .ok ⟨[]⟩) []) "t" 0 0 0 false
      rfl).2 rfl ⟨[]⟩ rfl⟩

/-! ## Parse envelope (claim C4) and Record access (claim C5) -/

theorem decodeU32s_length (bs : List Nat) (n : Nat) : (decodeU32s bs n).length = n := by
  induction n generalizing bs with
  | zero => rfl
  | succ n ih => simp [decodeU32s, ih]

/-- Claim C4 counterexample: a 9-byte stream whose first three bytes are not
the magic `'s','l','c'` parses successfully (`Parse` checks neither magic nor
version), contradicting the claim that `Parse` fails on a wrong magic. -/
theorem claim_C4_counterexample :
    ([0, 0, 0, 1, 0, 0, 0, 0, 0] : List Nat).take 3 ≠ FileFormatMagicBytes ∧
    Parse [0, 0, 0, 1, 0, 0, 0, 0, 0]
      = .ok ⟨⟨[0, 0, 0], 1, 0⟩, [], [0, 0, 0, 1, 0, 0, 0, 0, 0]⟩ := by
  exact ⟨by decide, rfl⟩

/-- Whether `Parse` succeeds on `p ++ bs` (with `p` the 5 magic+version
bytes) depends only on the remainder `bs`: success exactly when the stream
covers the header plus the `4·num_records` index. -/
theorem Parse_isOk_iff (p bs : List Nat) (hp : p.length = 5) :
    (Parse (p ++ bs)).isOk = true ↔
      9 + 4 * decodeU32le (bs.take 4) ≤ 5 + bs.length := by
  have hlen : (p ++ bs).length = 5 + bs.length := by
    rw [List.length_append, hp]
  have hdrop : (p ++ bs).drop 5 = bs := by
    rw [← hp, List.drop_left]
  rw [Parse, hlen, hdrop]
  by_cases h1 : 5 + bs.length < headerSize
  · rw [if_pos h1]
    simp only [headerSize] at h1
    constructor
    · intro h; cases h
    · intro h; omega
  · rw [if_neg h1]
    by_cases h2 : 5 + bs.length < headerSize + recordIndexSize * decodeU32le (bs.take 4)
    · rw [if_pos h2]
      simp only [headerSize, recordIndexSize] at h2
      constructor
      · intro h; cases h
      · intro h; omega
    · rw [if_neg h2]
      simp only [headerSize, recordIndexSize] at h2
      constructor
      · intro _; omega
      · intro _; rfl

/-- Claim C4 (amended): `Parse` performs no validation of magic or version —
its success is unchanged under replacing the 5 magic+version bytes by any
other 5 bytes; it fails exactly when the stream is shorter than the 9-byte
header plus the `4·num_records` index, and on a sufficiently long stream it
succeeds, returning a handle carrying the decoded header (whatever the magic
and version fields hold) and the full `num_records`-entry record index. -/
theorem claim_C4_amended (pre pre2 bs cs : List Nat)
    (hpre : pre.length = 5) (hpre2 : pre2.length = 5) :
    ((Parse (pre ++ bs)).isOk = (Parse (pre2 ++ bs)).isOk) ∧
    (cs.length < headerSize → Parse cs = .error .ioErr) ∧
    (headerSize ≤ cs.length →
      (cs.length < headerSize + recordIndexSize * decodeU32le ((cs.drop 5).take 4) →
        Parse cs = .error .ioErr) ∧
      (headerSize + recordIndexSize * decodeU32le ((cs.drop 5).take 4) ≤ cs.length →
        Parse cs = .ok
          { header :=
              { magicBytes := cs.take 3
                version := decodeI16le ((cs.drop 3).take 2)
                numRecords := decodeU32le ((cs.drop 5).take 4) }
            recordIndex := decodeU32s (cs.drop headerSize) (decodeU32le ((cs.drop 5).take 4))
            data := cs } ∧
        (decodeU32s (cs.drop headerSize) (decodeU32le ((cs.drop 5).take 4))).length
          = decodeU32le ((cs.drop 5).take 4))) := by
  refine ⟨?_, ?_, ?_⟩
  · have h1 := Parse_isOk_iff pre bs hpre
    have h2 := Parse_isOk_iff pre2 bs hpre2
    by_cases h : 9 + 4 * decodeU32le (bs.take 4) ≤ 5 + bs.length
    · rw [h1.mpr h, h2.mpr h]
    · cases hp1 : (Parse (pre ++ bs)).isOk with
      | true => exact absurd (h1.mp hp1) h
      | false =>
        cases hp2 : (Parse (pre2 ++ bs)).isOk with
        | true => exact absurd (h2.mp hp2) h
        | false => rfl
  · intro h
    rw [Parse, if_pos h]
  · intro h9
    refine ⟨?_, ?_⟩
    · intro hshort
      rw [Parse, if_neg (by omega), if_pos hshort]
    · intro hlong
      refine ⟨?_, decodeU32s_length _ _⟩
      rw [Parse, if_neg (by omega), if_neg (by omega)]

/-- Claim C4 amended witness: wrong magic and version (bytes `0,0,0,2,0`)
against the correct envelope bytes, over an empty remainder, and the success
case at a concrete well-formed stream. -/
theorem claim_C4_amended_witness :
    (([0, 0, 0, 2, 0] : List Nat).length = 5 ∧
      ([115, 108, 99, 1, 0] : List Nat).length = 5) ∧
    ((Parse (([0, 0, 0, 2, 0] : List Nat) ++ [0, 0, 0, 0])).isOk
        = (Parse (([115, 108, 99, 1, 0] : List Nat) ++ [0, 0, 0, 0])).isOk) ∧
    (([9, 9, 9, 9, 9, 0, 0, 0, 0] : List Nat).length < headerSize →
      Parse [9, 9, 9, 9, 9, 0, 0, 0, 0] = .error .ioErr) ∧
    (headerSize ≤ ([9, 9, 9, 9, 9, 0, 0, 0, 0] : List Nat).length →
      (([9, 9, 9, 9, 9, 0, 0, 0, 0] : List Nat).length < headerSize + recordIndexSize *
          decodeU32le ((([9, 9, 9, 9, 9, 0, 0, 0, 0] : List Nat).drop 5).take 4) →
        Parse [9, 9, 9, 9, 9, 0, 0, 0, 0] = .error .ioErr) ∧
      (headerSize + recordIndexSize *
          decodeU32le ((([9, 9, 9, 9, 9, 0, 0, 0, 0] : List Nat).drop 5).take 4)
          ≤ ([9, 9, 9, 9, 9, 0, 0, 0, 0] : List Nat).length →
        Parse [9, 9, 9, 9, 9, 0, 0, 0, 0] = .ok
          { header :=
              { magicBytes := ([9, 9, 9, 9, 9, 0, 0, 0, 0] : List Nat).take 3
                version := decodeI16le ((([9, 9, 9, 9, 9, 0, 0, 0, 0] : List Nat).drop 3).take 2)
                numRecords :=
                  decodeU32le ((([9, 9, 9, 9, 9, 0, 0, 0, 0] : List Nat).drop 5).take 4) }
            recordIndex := decodeU32s (([9, 9, 9, 9, 9, 0, 0, 0, 0] : List Nat).drop headerSize)
              (decodeU32le ((([9, 9, 9, 9, 9, 0, 0, 0, 0] : List Nat).drop 5).take 4))
            data := [9, 9, 9, 9, 9, 0, 0, 0, 0] } ∧
        (decodeU32s (([9, 9, 9, 9, 9, 0, 0, 0, 0] : List Nat).drop headerSize)
            (decodeU32le ((([9, 9, 9, 9, 9, 0, 0, 0, 0] : List Nat).drop 5).take 4))).length
          = decodeU32le ((([9, 9, 9, 9, 9, 0, 0, 0, 0] : List Nat).drop 5).take 4))) :=
  ⟨⟨by decide, by decide⟩,
    claim_C4_amended [0, 0, 0, 2, 0] [115, 108, 99, 1, 0] [0, 0, 0, 0]
      [9, 9, 9, 9, 9, 0, 0, 0, 0] (by decide) (by decide)⟩

theorem getD_lt_256 (l : List Nat) (h : ∀ b ∈ l, b < 256) (i : Nat) : l.getD i 0 < 256 := by
  by_cases hi : i < l.length
  · exact h _ (getD_mem l 0 i hi)
  · rw [List.getD_eq_default _ _ (by omega)]
    omega

theorem decodeU32le_lt (l : List Nat) (h : ∀ b ∈ l, b < 256) : decodeU32le l < 2^32 := by
  have h0 := getD_lt_256 l h 0
  have h1 := getD_lt_256 l h 1
  have h2 := getD_lt_256 l h 2
  have h3 := getD_lt_256 l h 3
  simp only [decodeU32le]
  omega

theorem decodeU32s_mem_lt (bs : List Nat) (n : Nat) (h : ∀ b ∈ bs, b < 256) :
    ∀ x ∈ decodeU32s bs n, x < 2^32 := by
  induction n generalizing bs with
  | zero => simp [decodeU32s]
  | succ n ih =>
    intro x hx
    simp only [decodeU32s, List.mem_cons] at hx
    rcases hx with rfl | hx
    · exact decodeU32le_lt _ fun b hb => h b (List.mem_of_mem_take hb)
    · exact ih (bs.drop 4) (fun b hb => h b (List.mem_of_mem_drop hb)) x hx

theorem Parse_ok_elim (bs : List Nat) (rb : RecordBatch) (h : Parse bs = .ok rb) :
    rb.data = bs ∧ rb.recordIndex.length = rb.header.numRecords ∧
    rb.recordIndex = decodeU32s (bs.drop headerSize) rb.header.numRecords ∧
    rb.header.numRecords = decodeU32le ((bs.drop 5).take 4) := by
  rw [Parse] at h
  by_cases h1 : bs.length < headerSize
  · rw [if_pos h1] at h; cases h
  · rw [if_neg h1] at h
    by_cases h2 : bs.length < headerSize + recordIndexSize * decodeU32le ((bs.drop 5).take 4)
    · rw [if_pos h2] at h; cases h
    · rw [if_neg h2] at h
      injection h with h
      subst h
      exact ⟨rfl, decodeU32s_length _ _, rfl, rfl⟩

/-- Claim C5: codec record access.  For every parsed handle, `Record(k)`
fails with the out-of-bounds sentinel exactly when `k ≥ num_records`;
otherwise it reads starting at file position
`header_size + 4·num_records + index[k]` and returns
`index[k+1] − index[k]` bytes, except for the last record (`k = N−1`),
which spans from that position to end of file.  (The position arithmetic is
stated in plain numbers under the format's `uint32` bounds.) -/
theorem claim_C5_record_access (bs : List Nat) (rb : RecordBatch) (k : Nat)
    (hbytes : ∀ b ∈ bs, b < 256)
    (hparse : Parse bs = .ok rb) :
    (rb.header.numRecords ≤ k → rb.Record k = .error .outOfBounds) ∧
    (k < rb.header.numRecords → rb.Record k ≠ .error .outOfBounds) ∧
    (k < rb.header.numRecords →
      headerSize + rb.header.numRecords * recordIndexSize + rb.recordIndex.getD k 0 < 2^32 →
      (k = rb.header.numRecords - 1 →
        rb.Record k = .ok (bs.drop
          (headerSize + rb.header.numRecords * recordIndexSize + rb.recordIndex.getD k 0))) ∧
      (k + 1 < rb.header.numRecords →
        rb.recordIndex.getD k 0 ≤ rb.recordIndex.getD (k + 1) 0 →
        headerSize + rb.header.numRecords * recordIndexSize + rb.recordIndex.getD (k + 1) 0
          ≤ bs.length →
        rb.Record k = .ok ((bs.drop
            (headerSize + rb.header.numRecords * recordIndexSize
              + rb.recordIndex.getD k 0)).take
          (rb.recordIndex.getD (k + 1) 0 - rb.recordIndex.getD k 0)))) := by
  obtain ⟨hdata, hlen, hidx, hnum⟩ := Parse_ok_elim bs rb hparse
  have hN : rb.header.numRecords < 2^32 := by
    rw [hnum]
    exact decodeU32le_lt _ fun b hb =>
      hbytes b (List.mem_of_mem_drop (List.mem_of_mem_take hb))
  have hIdxLt : ∀ x ∈ rb.recordIndex, x < 2^32 := by
    rw [hidx]
    exact decodeU32s_mem_lt _ _ fun b hb => hbytes b (List.mem_of_mem_drop hb)
  refine ⟨?_, ?_, ?_⟩
  · intro h
    rw [RecordBatch.Record, if_pos h]
  · intro hk
    rw [RecordBatch.Record, if_neg (by omega)]
    by_cases hlast : k = (rb.recordIndex.length + 2^32 - 1) % 2^32
    · rw [if_pos hlast]
      intro hcon
      cases hcon
    · rw [if_neg hlast]
      by_cases hshort : (rb.data.drop (rb.fileOffset k)).length < rb.recordSize k
      · rw [if_pos hshort]
        intro hcon
        injection hcon with hcon
        cases hcon
      · rw [if_neg hshort]
        intro hcon
        cases hcon
  · intro hk harith
    have hcond : (rb.recordIndex.length + 2^32 - 1) % 2^32 = rb.header.numRecords - 1 := by
      rw [hlen]
      omega
    have hfo : rb.fileOffset k =
        headerSize + rb.header.numRecords * recordIndexSize + rb.recordIndex.getD k 0 := by
      rw [RecordBatch.fileOffset]
      exact Nat.mod_eq_of_lt harith
    constructor
    · intro hlast
      rw [RecordBatch.Record, if_neg (by omega), if_pos (by rw [hcond, hlast]), hfo, hdata]
    · intro hk1 hmono hfile
      have hIdx1Lt : rb.recordIndex.getD (k + 1) 0 < 2^32 := by
        have hmem : rb.recordIndex.getD (k + 1) 0 ∈ rb.recordIndex :=
          getD_mem _ 0 (k + 1) (by omega)
        exact hIdxLt _ hmem
      have hsz : rb.recordSize k =
          rb.recordIndex.getD (k + 1) 0 - rb.recordIndex.getD k 0 := by
        rw [RecordBatch.recordSize]
        omega
      have hguard : ¬ ((rb.data.drop (rb.fileOffset k)).length < rb.recordSize k) := by
        rw [hdata, hfo, hsz, List.length_drop]
        omega
      rw [RecordBatch.Record, if_neg (by omega), if_neg (by rw [hcond]; omega),
        if_neg hguard, hfo, hsz, hdata]

/-- Claim C5 witness: the two-record file `Write [[7],[8,9]]`; reading
record 0 (non-last) takes 1 byte from position 17, and record 1 (last) reads
from position 18 to end of file. -/
theorem claim_C5_record_access_witness :
    (∀ b ∈ Write [[7], [8, 9]], b < 256) ∧
    RecordBatch.Record ⟨⟨[115, 108, 99], 1, 2⟩, [0, 1], Write [[7], [8, 9]]⟩ 0
      = .ok (((Write [[7], [8, 9]]).drop 17).take 1) :=
  ⟨by decide,
    ((claim_C5_record_access (Write [[7], [8, 9]])
        ⟨⟨[115, 108, 99], 1, 2⟩, [0, 1], Write [[7], [8, 9]]⟩ 0
        (by decide) rfl).2.2 (by decide) (by decide)).2
      (by decide) (by decide) (by decide)⟩

/-! ## Open protocol (claim C6) -/

theorem parseBatchIDs_ok (files : List File) (ids : List Nat)
    (h : files.map (fun f => parseBatchStem f.path) = ids.map some) :
    parseBatchIDs files = .ok ids := by
  induction files generalizing ids with
  | nil =>
    cases ids with
    | nil => rfl
    | cons a t => simp at h
  | cons f fs ih =>
    cases ids with
    | nil => simp at h
    | cons id rest =>
      simp only [List.map_cons, List.cons.injEq] at h
      have h2 := ih rest h.2
      show (match parseBatchStem f.path with
        | none => Except.error Err.parseIDErr
        | some id =>
          match parseBatchIDs fs with
          | .error e => .error e
          | .ok ids => .ok (id :: ids)) = .ok (id :: rest)
      rw [h.1, h2]

theorem sorted_le_getLastD (l : List Nat) (hs : l.Pairwise (· ≤ ·)) :
    ∀ x ∈ l, x ≤ l.getLastD 0 := by
  induction l with
  | nil => simp
  | cons a rest ih =>
    rw [List.pairwise_cons] at hs
    intro x hx
    cases rest with
    | nil =>
      rw [List.mem_singleton] at hx
      subst hx
      exact Nat.le_refl _
    | cons b t =>
      have hgl : ((a :: b :: t).getLastD 0 : Nat) = (b :: t).getLastD 0 := by
        simp [List.getLastD_cons]
      rw [hgl]
      rcases List.mem_cons.mp hx with rfl | hmem
      · exact Nat.le_trans (hs.1 b (List.mem_cons_self b t)) (ih hs.2 b (List.mem_cons_self b t))
      · exact ih hs.2 x hmem

/-- Claim C6: open protocol.  Opening a topic parses each listed batch
filename's stem as a first offset, sorts the offsets ascending (the stored
id list is the sorted permutation of the parsed stems, with the highest
offset last), and sets `nextRecordID` to the highest first offset plus the
`NumRecords` read from that batch's header; with no batch files,
`nextRecordID` is 0. -/
theorem claim_C6_open_protocol (backing : List (String × List Nat)) (rootDir topic : String)
    (cache : Option (List (String × List Nat))) (ids : List Nat)
    (hstems : (ListFiles backing (pathJoin rootDir topic) recordBatchExtension).map
        (fun f => parseBatchStem f.path) = ids.map some) :
    (ids = [] →
      NewTopicStorage backing rootDir topic cache
        = .ok ⟨pathJoin rootDir topic, 0, [], backing, cache⟩) ∧
    (List.insertionSort (· ≤ ·) ids).Sorted (· ≤ ·) ∧
    (List.insertionSort (· ≤ ·) ids).Perm ids ∧
    (∀ x ∈ ids, x ≤ (List.insertionSort (· ≤ ·) ids).getLastD 0) ∧
    (∀ bs rb, ids ≠ [] →
      backing.lookup (RecordBatchPath (pathJoin rootDir topic)
        ((List.insertionSort (· ≤ ·) ids).getLastD 0)) = some bs →
      Parse bs = .ok rb →
      (List.insertionSort (· ≤ ·) ids).getLastD 0 + rb.header.numRecords < 2^64 →
      NewTopicStorage backing rootDir topic cache = .ok
        ⟨pathJoin rootDir topic,
          (List.insertionSort (· ≤ ·) ids).getLastD 0 + rb.header.numRecords,
          List.insertionSort (· ≤ ·) ids, backing, cache⟩) := by
  have hpb : parseBatchIDs (ListFiles backing (pathJoin rootDir topic) recordBatchExtension)
      = .ok ids := parseBatchIDs_ok _ _ hstems
  have hlr : listRecordBatchIDs (ListFiles backing (pathJoin rootDir topic)
      recordBatchExtension) = .ok (List.insertionSort (· ≤ ·) ids) := by
    rw [listRecordBatchIDs, hpb]
  have hsorted : (List.insertionSort (· ≤ ·) ids).Sorted (· ≤ ·) :=
    List.sorted_insertionSort (· ≤ ·) ids
  have hperm : (List.insertionSort (· ≤ ·) ids).Perm ids :=
    List.perm_insertionSort (· ≤ ·) ids
  refine ⟨?_, hsorted, hperm, ?_, ?_⟩
  · intro hnil
    subst hnil
    rw [NewTopicStorage, hlr]
    rfl
  · intro x hx
    exact sorted_le_getLastD _ hsorted x (hperm.mem_iff.mpr hx)
  · intro bs rb hne hlook hparse hbound
    have hlen : 0 < (List.insertionSort (· ≤ ·) ids).length := by
      rw [hperm.length_eq]
      cases ids with
      | nil => cases hne rfl
      | cons a t => simp
    have hhdr : readRecordBatchHeader backing (pathJoin rootDir topic)
        ((List.insertionSort (· ≤ ·) ids).getLastD 0) = .ok rb.header := by
      rw [readRecordBatchHeader, hlook]
      dsimp only
      rw [hparse]
    rw [NewTopicStorage, hlr]
    dsimp only
    rw [if_pos hlen, hhdr]
    dsimp only
    rw [Nat.mod_eq_of_lt hbound]

/-- Claim C6 witness: one batch file for topic `t` named with first offset 5
holding 3 records; the opened topic has `nextRecordID = 5 + 3 = 8`. -/
theorem claim_C6_open_protocol_witness :
    ((ListFiles [("root/t/000000000005.record_batch", Write [[1], [2], [3]])]
        (pathJoin "root" "t") recordBatchExtension).map (fun f => parseBatchStem f.path)
      = ([5] : List Nat).map some) ∧
    NewTopicStorage [("root/t/000000000005.record_batch", Write [[1], [2], [3]])]
        "root" "t" Option.none
      = .ok ⟨pathJoin "root" "t", 8, [5],
          [("root/t/000000000005.record_batch", Write [[1], [2], [3]])], Option.none⟩ :=
  ⟨by decide,
    (claim_C6_open_protocol [("root/t/000000000005.record_batch", Write [[1], [2], [3]])]
        "root" "t" Option.none [5] (by decide)).2.2.2.2
      (Write [[1], [2], [3]])
      ⟨⟨[115, 108, 99], 1, 3⟩, recIndex [[1], [2], [3]], Write [[1], [2], [3]]⟩
      (by decide) rfl rfl (by decide)⟩
